import Mathlib

/-!
Shallow embedding of `cargo-reduce-recipe` (`src/lib.rs`).

The program reduces a cargo-chef build recipe (a snapshot of a workspace's
manifests plus optional lock file) to the subset of workspace packages
reachable from the root workspace members.

TOML parsing is an external capability (`toml_edit`): a manifest's raw text
is modelled by the result of parsing it — `Option TomlDoc`, where `none`
stands for text that fails to parse, and `TomlDoc` records exactly the
fields the program reads (`package.name`, the keys of the top-level
`[dependencies]` table, the keys of any other dependency-like tables the
program never reads, and `workspace.members`).  Likewise the lock-file text
is modelled by its parse result, and the format-preserving round-trip of
`toml_edit` (`parse` then `to_string` is the identity on unmodified
documents) makes write-back the identity on the structured value.
-/

/-- Parse result of one manifest's TOML text, restricted to the fields the
program reads.  `dependencies` is `some keys` when a top-level
`[dependencies]` table is present (the keys of that table), `none` when the
key is absent or not a table.  `otherDepTables` are the keys appearing in
dependency-like tables other than top-level `[dependencies]`
(dev-dependencies, build-dependencies, target-specific tables); the code
never reads them.  `workspaceMembers` is `some items` when
`workspace.members` is an array, where each item is `some s` for a string
item and `none` for a non-string item. -/
structure TomlDoc where
  packageName : Option String
  dependencies : Option (List String)
  otherDepTables : List String
  workspaceMembers : Option (List (Option String))
deriving DecidableEq

/-- One manifest record of the recipe skeleton: its workspace-relative path
and its contents (`none` models contents that fail to parse as TOML). -/
structure Manifest where
  relative_path : String
  contents : Option TomlDoc
deriving DecidableEq

/-- One `[[package]]` entry of the lock file.  `name` is
`get("name").and_then(as_str)`: `none` when the field is absent or not a
string. -/
structure LockPkg where
  name : Option String
deriving DecidableEq

/-- Parse result of the lock-file text.  `package` is `some pkgs` when the
top-level `package` item is an array of tables, `none` otherwise (absent or
of another kind; in both cases the program leaves the document unchanged). -/
structure LockDoc where
  package : Option (List LockPkg)
deriving DecidableEq

/-- The recipe skeleton: an ordered sequence of manifests plus an optional
lock file.  `lock_file = none` models an absent lock file, `some none` a
lock-file text present but failing to parse, `some (some d)` a lock-file
text parsing to `d`. -/
structure Skeleton where
  manifests : List Manifest
  lock_file : Option (Option LockDoc)
deriving DecidableEq

/-- The recipe: unit of work. -/
structure Recipe where
  skeleton : Skeleton
deriving DecidableEq

/-- Embedding of `extract_crate_name`: parse the manifest (already reflected in
`contents`) and read `package.name` as a string. -/
def extract_crate_name (m : Manifest) : Option String :=
  m.contents.bind (fun doc => doc.packageName)

/-- Embedding of `get_root_manifest`: find the manifest whose relative path is
`Cargo.toml`; error if none exists. -/
def get_root_manifest (r : Recipe) : Except String Manifest :=
  match r.skeleton.manifests.find? (fun m => m.relative_path == "Cargo.toml") with
  | some m => Except.ok m
  | none => Except.error "no root Cargo.toml found"

/-- Embedding of `get_root_workspace_members`: parse the root manifest (error on parse
failure), require `workspace.members` to be an array (error otherwise), and
collect its string items (`filter_map as_str`). -/
def get_root_workspace_members (root : Manifest) : Except String (List String) :=
  match root.contents with
  | none => Except.error "root Cargo.toml is not valid toml"
  | some doc =>
    match doc.workspaceMembers with
    | none => Except.error "workspace members must be an array"
    | some items => Except.ok (items.filterMap id)

/-- Embedding of `get_all_workspace_members`: every crate name extractable from some
manifest. -/
def get_all_workspace_members (r : Recipe) : List String :=
  r.skeleton.manifests.filterMap extract_crate_name

/-- Insert-with-overwrite into an association list, mirroring
`HashMap::insert`. -/
def assocInsert (k : String) (v : List String) :
    List (String × List String) → List (String × List String)
  | [] => [(k, v)]
  | (k', v') :: rest =>
    if k' = k then (k, v) :: rest else (k', v') :: assocInsert k v rest

/-- Lookup mirroring `HashMap::get` on the association list. -/
def lookupDeps (deps : List (String × List String)) (k : String) :
    Option (List String) :=
  (deps.find? (fun p => p.1 == k)).map (fun p => p.2)

/-- One iteration of the `build_workspace_deps` loop: skip the manifest when
its name is not extractable or its contents do not parse; otherwise record
the keys of its top-level `[dependencies]` table that are workspace
members. -/
def bwdStep (all : List String) (map : List (String × List String))
    (m : Manifest) : List (String × List String) :=
  match m.contents with
  | none => map
  | some doc =>
    match doc.packageName with
    | none => map
    | some name =>
      let ds := (doc.dependencies.getD []).filter (fun d => decide (d ∈ all))
      assocInsert name ds map

/-- Embedding of `build_workspace_deps`: the workspace dependency map, built by iterating
the manifests in order. -/
def build_workspace_deps (r : Recipe) (all : List String) :
    List (String × List String) :=
  r.skeleton.manifests.foldl (bwdStep all) []

/-- One iteration of the `compute_transitive_members` work-list loop: pop a
name; if newly inserted into the keep set, push its dependency set (when it
has one). -/
def ctmStep (deps : List (String × List String)) :
    List String × List String → List String × List String
  | (keep, []) => (keep, [])
  | (keep, m :: stack) =>
    if m ∈ keep then (keep, stack)
    else
      match lookupDeps deps m with
      | some ds => (m :: keep, ds ++ stack)
      | none => (m :: keep, stack)

/-- Iterate the work-list loop `n` times. -/
def ctmRun (deps : List (String × List String)) :
    Nat → List String × List String → List String × List String
  | 0, s => s
  | n + 1, s => ctmRun deps n (ctmStep deps s)

/-- Upper bound on the number of loop iterations: every push comes from the
initial stack or from one expansion of one dependency entry. -/
def ctmFuel (roots : List String) (deps : List (String × List String)) : Nat :=
  roots.length + (deps.map (fun p => p.2.length)).sum

/-- Embedding of `compute_transitive_members`: run the work-list loop seeded with the
root members; the keep set is the visited set when the work list empties
(which happens within `ctmFuel` iterations — proved below). -/
def compute_transitive_members (roots : List String)
    (deps : List (String × List String)) : List String :=
  (ctmRun deps (ctmFuel roots deps) ([], roots)).1

/-- The retain predicate of `filter_manifests`:
`extract_crate_name(m).is_none_or(|name| keep.contains(name))`. -/
def keepManifest (keep : List String) (m : Manifest) : Bool :=
  match extract_crate_name m with
  | none => true
  | some name => decide (name ∈ keep)

/-- Embedding of `filter_manifests`: retain exactly the manifests whose crate name is
absent or in the keep set (`Vec::retain` preserves order). -/
def filter_manifests (r : Recipe) (keep : List String) : Recipe :=
  { r with skeleton :=
      { r.skeleton with
        manifests := r.skeleton.manifests.filter (keepManifest keep) } }

/-- The retain predicate of `filter_lockfile_members`:
`name.is_none_or(|n| !all.contains(n) || keep.contains(n))`. -/
def keepLockPkg (all keep : List String) (p : LockPkg) : Bool :=
  match p.name with
  | none => true
  | some name => decide (name ∉ all) || decide (name ∈ keep)

/-- Embedding of `filter_lockfile_members`: no-op when no lock file is present; hard
error when the lock-file text does not parse; otherwise filter the
`package` array of tables (leaving the document unchanged when that item is
absent or not an array of tables) and write the document back. -/
def filter_lockfile_members (r : Recipe) (all keep : List String) :
    Except String Recipe :=
  match r.skeleton.lock_file with
  | none => Except.ok r
  | some none => Except.error "lock file is not valid toml"
  | some (some doc) =>
    let doc' : LockDoc :=
      match doc.package with
      | some pkgs => ⟨some (pkgs.filter (keepLockPkg all keep))⟩
      | none => doc
    Except.ok { r with skeleton := { r.skeleton with lock_file := some (some doc') } }

/-- Embedding of `reduce_workspace_recipe`: the whole pipeline. -/
def reduce_workspace_recipe (r : Recipe) : Except String Recipe :=
  match get_root_manifest r with
  | Except.error e => Except.error e
  | Except.ok root =>
    match get_root_workspace_members root with
    | Except.error e => Except.error e
    | Except.ok root_members =>
      let all := get_all_workspace_members r
      let deps := build_workspace_deps r all
      let keep := compute_transitive_members root_members deps
      filter_lockfile_members (filter_manifests r keep) all keep

/-- Reachability over the dependency graph: zero or more edges from some
root.  An edge goes from `m` to each element of `m`'s entry in the map. -/
inductive Reach (deps : List (String × List String)) (roots : List String) :
    String → Prop
  | root {n : String} : n ∈ roots → Reach deps roots n
  | step {m n : String} {ds : List String} :
      Reach deps roots m → lookupDeps deps m = some ds → n ∈ ds →
      Reach deps roots n

/-- Weight of one dependency entry. -/
def depWeight (p : String × List String) : Nat := p.2.length

/-- Loop potential: stack length plus the total weight of the dependency
entries whose key is not yet in the keep set. -/
def ctmPot (deps : List (String × List String))
    (s : List String × List String) : Nat :=
  s.2.length +
    ((deps.filter (fun p => decide (p.1 ∉ s.1))).map depWeight).sum

/-- Support invariant of the work-list loop: the roots and the recorded
dependency targets of the keep set are covered by keep set plus stack. -/
def ctmSupp (deps : List (String × List String)) (roots : List String)
    (s : List String × List String) : Prop :=
  (∀ x ∈ roots, x ∈ s.1 ∨ x ∈ s.2) ∧
    (∀ m ∈ s.1, ∀ ds, lookupDeps deps m = some ds →
      ∀ d ∈ ds, d ∈ s.1 ∨ d ∈ s.2)

/-- Erase the dependency-like tables other than top-level `[dependencies]`
from a parsed document (the code never reads them). -/
def scrubDoc (d : TomlDoc) : TomlDoc := { d with otherDepTables := [] }

/-- Lift of `scrubDoc` to a manifest's contents. -/
def scrubManifest (m : Manifest) : Manifest :=
  { m with contents := m.contents.map scrubDoc }

/-- Lift of `scrubDoc` to all manifests of a recipe. -/
def scrubRecipe (r : Recipe) : Recipe :=
  ⟨⟨r.skeleton.manifests.map scrubManifest, r.skeleton.lock_file⟩⟩

/-- Example: a virtual root manifest listing member `a`. -/
def wRoot : Manifest := ⟨"Cargo.toml", some ⟨none, none, [], some [some "a"]⟩⟩

/-- Example: member `a`, depending on member `b` and external `serde`. -/
def wA : Manifest :=
  ⟨"a/Cargo.toml", some ⟨some "a", some ["b", "serde"], [], none⟩⟩

/-- Example: member `b`, no dependencies table. -/
def wB : Manifest := ⟨"b/Cargo.toml", some ⟨some "b", none, [], none⟩⟩

/-- Example: a manifest whose contents fail to parse. -/
def wBad : Manifest := ⟨"bad/Cargo.toml", none⟩

/-- Example recipe with no lock file: root plus `a → b`. -/
def wRecipe : Recipe := ⟨⟨[wRoot, wA, wB], none⟩⟩

/-- Example lock-file entries: both members, one external, one nameless. -/
def wPkgs : List LockPkg :=
  [⟨some "a"⟩, ⟨some "b"⟩, ⟨some "serde"⟩, ⟨none⟩]

/-- Example recipe with a parsed lock file. -/
def wLockRecipe : Recipe := ⟨⟨[wRoot, wA, wB], some (some ⟨some wPkgs⟩)⟩⟩

/-- Example recipe whose lock-file text does not parse. -/
def wBadLockRecipe : Recipe := ⟨⟨[wRoot, wA, wB], some none⟩⟩

/-- A root manifest that also declares a package name (`rootpkg`) not
reachable from the single listed member `a`. -/
def c4Root : Manifest :=
  ⟨"Cargo.toml", some ⟨some "rootpkg", none, [], some [some "a"]⟩⟩

/-- The sole member `a` of the `c4` workspace. -/
def c4A : Manifest := ⟨"a/Cargo.toml", some ⟨some "a", none, [], none⟩⟩

/-- Recipe whose root manifest is not virtual. -/
def c4Recipe : Recipe := ⟨⟨[c4Root, c4A], none⟩⟩

/-- A root manifest whose `workspace.members` is an array containing a
non-string item. -/
def c6Root : Manifest := ⟨"Cargo.toml", some ⟨none, none, [], some [none]⟩⟩

/-- Recipe whose member `x` depends on `y` via `[dependencies]` and
references `z` only from another dependency-like table. -/
def wC10Recipe : Recipe :=
  ⟨⟨[⟨"x/Cargo.toml", some ⟨some "x", some ["y"], ["z"], none⟩⟩,
     ⟨"y/Cargo.toml", some ⟨some "y", none, [], none⟩⟩,
     ⟨"z/Cargo.toml", some ⟨some "z", none, [], none⟩⟩], none⟩⟩

/-! ## Termination of the work-list loop -/

lemma sum_map_filter_split (l : List (String × List String))
    (p q : String × List String → Bool) :
    ((l.filter p).map depWeight).sum =
      ((l.filter (fun x => p x && q x)).map depWeight).sum +
      ((l.filter (fun x => p x && !q x)).map depWeight).sum := by
  induction l with
  | nil => simp
  | cons a l ih =>
    cases hp : p a <;> cases hq : q a <;>
      simp [List.filter_cons, hp, hq, ih] <;> omega

lemma depWeight_le_sum {e : String × List String}
    {l : List (String × List String)} (h : e ∈ l) :
    depWeight e ≤ (l.map depWeight).sum := by
  induction l with
  | nil => cases h
  | cons a l ih =>
    rcases List.mem_cons.mp h with h | h
    · subst h; simp
    · simp only [List.map_cons, List.sum_cons]
      exact Nat.le_add_left _ _ |>.trans (Nat.add_le_add_left (ih h) _)

lemma ctmPot_step_lt (deps : List (String × List String))
    (keep stack : List String) (m : String) :
    ctmPot deps (ctmStep deps (keep, m :: stack)) <
      ctmPot deps (keep, m :: stack) := by
  by_cases hm : m ∈ keep
  · simp only [ctmStep, if_pos hm, ctmPot, List.length_cons]
    omega
  · rcases hd : lookupDeps deps m with _ | ds
    · have hnone : deps.find? (fun p => p.1 == m) = none := by
        simpa [lookupDeps] using hd
      have hcong : deps.filter (fun p => decide (p.1 ∉ m :: keep)) =
          deps.filter (fun p => decide (p.1 ∉ keep)) := by
        apply List.filter_congr
        intro x hx
        have hne : ¬ (x.1 == m) = true := by
          have := List.find?_eq_none.mp hnone x hx
          simpa using this
        have hne' : x.1 ≠ m := by simpa using hne
        simp [List.mem_cons, hne']
      simp only [ctmStep, if_neg hm, hd, ctmPot, List.length_cons, hcong]
      omega
    · obtain ⟨e, hfind, hsnd⟩ :
          ∃ e, deps.find? (fun p => p.1 == m) = some e ∧ e.2 = ds := by
        rcases hf : deps.find? (fun p => p.1 == m) with _ | e
        · simp [lookupDeps, hf] at hd
        · refine ⟨e, hf, ?_⟩
          simpa [lookupDeps, hf] using hd
      have hmem : e ∈ deps := List.mem_of_find?_eq_some hfind
      have hkey : e.1 = m := by
        have := List.find?_some hfind
        simpa using this
      have hcong : deps.filter (fun p => decide (p.1 ∉ m :: keep)) =
          deps.filter (fun p =>
            decide (p.1 ∉ keep) && !(decide (p.1 = m))) := by
        apply List.filter_congr
        intro x _
        by_cases h1 : x.1 = m <;> by_cases h2 : x.1 ∈ keep <;>
          simp [List.mem_cons, h1, h2]
      have hsplit := sum_map_filter_split deps
        (fun p => decide (p.1 ∉ keep)) (fun p => !(decide (p.1 = m)))
      have hedrop : e ∈ deps.filter
          (fun p => decide (p.1 ∉ keep) && !(!(decide (p.1 = m)))) := by
        refine List.mem_filter.mpr ⟨hmem, ?_⟩
        rw [hkey]
        simp [hm]
      have hle : depWeight e ≤
          ((deps.filter (fun p =>
            decide (p.1 ∉ keep) && !(!(decide (p.1 = m))))).map depWeight).sum :=
        depWeight_le_sum hedrop
      have hds : depWeight e = ds.length := by
        unfold depWeight; rw [hsnd]
      simp only [ctmStep, if_neg hm, hd, ctmPot, List.length_cons,
        List.length_append, hcong]
      omega

lemma ctmRun_fix_of_nil (deps : List (String × List String))
    (n : Nat) (keep : List String) :
    ctmRun deps n (keep, []) = (keep, []) := by
  induction n with
  | zero => rfl
  | succ n ih => simpa [ctmRun, ctmStep] using ih

lemma ctmRun_stack_nil (deps : List (String × List String)) :
    ∀ (n : Nat) (s : List String × List String),
      ctmPot deps s ≤ n → (ctmRun deps n s).2 = [] := by
  intro n
  induction n with
  | zero =>
    intro s hs
    have : s.2.length = 0 := by
      have := hs
      simp only [ctmPot] at this
      omega
    simpa [ctmRun] using List.length_eq_zero.mp this
  | succ n ih =>
    intro s hs
    obtain ⟨keep, stack⟩ := s
    cases stack with
    | nil => simp [ctmRun_fix_of_nil]
    | cons m st =>
      have hlt := ctmPot_step_lt deps keep st m
      have : ctmPot deps (ctmStep deps (keep, m :: st)) ≤ n := by omega
      simpa [ctmRun] using ih _ this

/-! ## The keep set is the reachability closure -/

lemma ctmStep_sound (deps : List (String × List String))
    (roots : List String) (s : List String × List String)
    (h1 : ∀ x ∈ s.1, Reach deps roots x)
    (h2 : ∀ x ∈ s.2, Reach deps roots x) :
    (∀ x ∈ (ctmStep deps s).1, Reach deps roots x) ∧
      (∀ x ∈ (ctmStep deps s).2, Reach deps roots x) := by
  obtain ⟨keep, stack⟩ := s
  cases stack with
  | nil => exact ⟨h1, by intro x hx; cases hx⟩
  | cons m st =>
    have hm : Reach deps roots m := h2 m (List.mem_cons_self m st)
    have hst : ∀ x ∈ st, Reach deps roots x := fun x hx =>
      h2 x (List.mem_cons_of_mem m hx)
    by_cases hk : m ∈ keep
    · simp only [ctmStep, if_pos hk]
      exact ⟨h1, hst⟩
    · rcases hd : lookupDeps deps m with _ | ds
      · simp only [ctmStep, if_neg hk, hd]
        refine ⟨fun x hx => ?_, hst⟩
        rcases List.mem_cons.mp hx with h | h
        · subst h; exact hm
        · exact h1 x h
      · simp only [ctmStep, if_neg hk, hd]
        constructor
        · intro x hx
          rcases List.mem_cons.mp hx with h | h
          · subst h; exact hm
          · exact h1 x h
        · intro x hx
          rcases List.mem_append.mp hx with h | h
          · exact Reach.step hm hd h
          · exact hst x h

lemma ctmRun_sound (deps : List (String × List String))
    (roots : List String) :
    ∀ (n : Nat) (s : List String × List String),
      (∀ x ∈ s.1, Reach deps roots x) →
      (∀ x ∈ s.2, Reach deps roots x) →
      (∀ x ∈ (ctmRun deps n s).1, Reach deps roots x) ∧
        (∀ x ∈ (ctmRun deps n s).2, Reach deps roots x) := by
  intro n
  induction n with
  | zero => intro s h1 h2; exact ⟨h1, h2⟩
  | succ n ih =>
    intro s h1 h2
    have hs := ctmStep_sound deps roots s h1 h2
    simpa [ctmRun] using ih _ hs.1 hs.2

lemma ctmStep_supp (deps : List (String × List String))
    (roots : List String) (s : List String × List String)
    (h : ctmSupp deps roots s) : ctmSupp deps roots (ctmStep deps s) := by
  obtain ⟨keep, stack⟩ := s
  obtain ⟨hroots, hclose⟩ := h
  cases stack with
  | nil => exact ⟨hroots, hclose⟩
  | cons m st =>
    by_cases hk : m ∈ keep
    · simp only [ctmStep, if_pos hk]
      constructor
      · intro x hx
        rcases hroots x hx with h | h
        · exact Or.inl h
        · rcases List.mem_cons.mp h with h | h
          · subst h; exact Or.inl hk
          · exact Or.inr h
      · intro m' hm' ds hds d hdm
        rcases hclose m' hm' ds hds d hdm with h | h
        · exact Or.inl h
        · rcases List.mem_cons.mp h with h | h
          · subst h; exact Or.inl hk
          · exact Or.inr h
    · rcases hd : lookupDeps deps m with _ | ds₀
      · simp only [ctmStep, if_neg hk, hd]
        constructor
        · intro x hx
          rcases hroots x hx with h | h
          · exact Or.inl (List.mem_cons_of_mem m h)
          · rcases List.mem_cons.mp h with h | h
            · exact Or.inl (List.mem_cons.mpr (Or.inl h))
            · exact Or.inr h
        · intro m' hm' ds hds d hdm
          rcases List.mem_cons.mp hm' with h | h
          · subst h; rw [hd] at hds; cases hds
          · rcases hclose m' h ds hds d hdm with h' | h'
            · exact Or.inl (List.mem_cons_of_mem m h')
            · rcases List.mem_cons.mp h' with h' | h'
              · exact Or.inl (List.mem_cons.mpr (Or.inl h'))
              · exact Or.inr h'
      · simp only [ctmStep, if_neg hk, hd]
        constructor
        · intro x hx
          rcases hroots x hx with h | h
          · exact Or.inl (List.mem_cons_of_mem m h)
          · rcases List.mem_cons.mp h with h | h
            · exact Or.inl (List.mem_cons.mpr (Or.inl h))
            · exact Or.inr (List.mem_append_right ds₀ h)
        · intro m' hm' ds hds d hdm
          rcases List.mem_cons.mp hm' with h | h
          · subst h
            rw [hd] at hds
            cases hds
            exact Or.inr (List.mem_append_left _ hdm)
          · rcases hclose m' h ds hds d hdm with h' | h'
            · exact Or.inl (List.mem_cons_of_mem m h')
            · rcases List.mem_cons.mp h' with h' | h'
              · exact Or.inl (List.mem_cons.mpr (Or.inl h'))
              · exact Or.inr (List.mem_append_right ds₀ h')

lemma ctmRun_supp (deps : List (String × List String))
    (roots : List String) :
    ∀ (n : Nat) (s : List String × List String),
      ctmSupp deps roots s → ctmSupp deps roots (ctmRun deps n s) := by
  intro n
  induction n with
  | zero => intro s h; exact h
  | succ n ih =>
    intro s h
    simpa [ctmRun] using ih _ (ctmStep_supp deps roots s h)

lemma ctm_stack_nil (roots : List String)
    (deps : List (String × List String)) :
    (ctmRun deps (ctmFuel roots deps) ([], roots)).2 = [] := by
  apply ctmRun_stack_nil
  have hfil : deps.filter (fun p => decide (p.1 ∉ ([] : List String))) = deps :=
    List.filter_eq_self.mpr (fun p _ => by simp)
  have hmap : deps.map depWeight = deps.map (fun p => p.2.length) := rfl
  simp only [ctmPot, ctmFuel, hfil, hmap]
  omega

/-- The computed keep set is exactly the reachability closure of the
roots. -/
lemma mem_ctm_iff_reach (roots : List String)
    (deps : List (String × List String)) (n : String) :
    n ∈ compute_transitive_members roots deps ↔ Reach deps roots n := by
  have hnil := ctm_stack_nil roots deps
  constructor
  · intro hn
    have hsound := ctmRun_sound deps roots (ctmFuel roots deps) ([], roots)
      (by intro x hx; cases hx) (fun x hx => Reach.root hx)
    exact hsound.1 n hn
  · intro hr
    have hsupp := ctmRun_supp deps roots (ctmFuel roots deps) ([], roots)
      ⟨fun x hx => Or.inr hx, by intro m hm; cases hm⟩
    induction hr with
    | root h =>
      rcases hsupp.1 _ h with h' | h'
      · exact h'
      · rw [hnil] at h'; cases h'
    | step hm hd hn ih =>
      rcases hsupp.2 _ ih _ hd _ hn with h' | h'
      · exact h'
      · rw [hnil] at h'; cases h'

/-! ## Pipeline helper lemmas -/

lemma mem_all_iff (r : Recipe) (c : String) :
    c ∈ get_all_workspace_members r ↔
      ∃ m ∈ r.skeleton.manifests, extract_crate_name m = some c := by
  simp [get_all_workspace_members, List.mem_filterMap]

lemma reduce_eq_pipeline (r : Recipe) (root : Manifest) (roots : List String)
    (h1 : get_root_manifest r = Except.ok root)
    (h2 : get_root_workspace_members root = Except.ok roots) :
    reduce_workspace_recipe r =
      filter_lockfile_members
        (filter_manifests r
          (compute_transitive_members roots
            (build_workspace_deps r (get_all_workspace_members r))))
        (get_all_workspace_members r)
        (compute_transitive_members roots
          (build_workspace_deps r (get_all_workspace_members r))) := by
  unfold reduce_workspace_recipe
  rw [h1]
  dsimp only
  rw [h2]

lemma filter_manifests_manifests (r : Recipe) (keep : List String) :
    (filter_manifests r keep).skeleton.manifests =
      r.skeleton.manifests.filter (keepManifest keep) := rfl

lemma filter_manifests_lock (r : Recipe) (keep : List String) :
    (filter_manifests r keep).skeleton.lock_file = r.skeleton.lock_file := rfl

lemma flm_ok_manifests (r : Recipe) (all keep : List String) (out : Recipe)
    (h : filter_lockfile_members r all keep = Except.ok out) :
    out.skeleton.manifests = r.skeleton.manifests := by
  unfold filter_lockfile_members at h
  rcases hl : r.skeleton.lock_file with _ | lf
  · rw [hl] at h
    simp only [Except.ok.injEq] at h
    subst h
    rfl
  · rcases lf with _ | doc
    · rw [hl] at h
      simp at h
    · rw [hl] at h
      simp only [Except.ok.injEq] at h
      subst h
      rfl

lemma flm_lock_none (r : Recipe) (all keep : List String)
    (h : r.skeleton.lock_file = none) :
    filter_lockfile_members r all keep = Except.ok r := by
  unfold filter_lockfile_members
  rw [h]

lemma flm_lock_bad (r : Recipe) (all keep : List String)
    (h : r.skeleton.lock_file = some none) :
    ∀ out, filter_lockfile_members r all keep ≠ Except.ok out := by
  intro out hk
  unfold filter_lockfile_members at hk
  rw [h] at hk
  simp at hk

lemma flm_lock_parsed (r : Recipe) (all keep : List String)
    (doc : LockDoc) (pkgs : List LockPkg)
    (hl : r.skeleton.lock_file = some (some doc))
    (hp : doc.package = some pkgs) :
    filter_lockfile_members r all keep =
      Except.ok { r with skeleton := { r.skeleton with
        lock_file :=
          some (some ⟨some (pkgs.filter (keepLockPkg all keep))⟩) } } := by
  unfold filter_lockfile_members
  rw [hl]
  dsimp only
  rw [hp]

lemma reduce_ok_destruct (r out : Recipe)
    (h : reduce_workspace_recipe r = Except.ok out) :
    ∃ root roots,
      get_root_manifest r = Except.ok root ∧
      get_root_workspace_members root = Except.ok roots ∧
      filter_lockfile_members
        (filter_manifests r
          (compute_transitive_members roots
            (build_workspace_deps r (get_all_workspace_members r))))
        (get_all_workspace_members r)
        (compute_transitive_members roots
          (build_workspace_deps r (get_all_workspace_members r))) =
        Except.ok out := by
  unfold reduce_workspace_recipe at h
  rcases h1 : get_root_manifest r with e | root
  · rw [h1] at h; simp at h
  · rw [h1] at h
    dsimp only at h
    rcases h2 : get_root_workspace_members root with e | roots
    · rw [h2] at h; simp at h
    · rw [h2] at h
      dsimp only at h
      exact ⟨root, roots, rfl, h2, h⟩

lemma reduce_ok_manifests (r out : Recipe) (root : Manifest)
    (roots : List String)
    (h1 : get_root_manifest r = Except.ok root)
    (h2 : get_root_workspace_members root = Except.ok roots)
    (h : reduce_workspace_recipe r = Except.ok out) :
    out.skeleton.manifests = r.skeleton.manifests.filter
      (keepManifest (compute_transitive_members roots
        (build_workspace_deps r (get_all_workspace_members r)))) := by
  rw [reduce_eq_pipeline r root roots h1 h2] at h
  have := flm_ok_manifests _ _ _ _ h
  rw [this, filter_manifests_manifests]

/-! ## Claims -/

/-- C1: for every root set and dependency graph, the keep set returned by
`compute_transitive_members` is the least set containing every root name
(including roots with no node in the graph) and closed under the graph's
edge relation — a name is in the keep set iff it is reachable from some
root via zero or more edges. -/
theorem C1_keep_set_is_reachability_closure (roots : List String)
    (deps : List (String × List String)) :
    (∀ n, n ∈ compute_transitive_members roots deps ↔ Reach deps roots n) ∧
    (∀ n ∈ roots, n ∈ compute_transitive_members roots deps) ∧
    (∀ m ∈ compute_transitive_members roots deps, ∀ ds,
      lookupDeps deps m = some ds →
      ∀ d ∈ ds, d ∈ compute_transitive_members roots deps) ∧
    (∀ S : String → Prop, (∀ n ∈ roots, S n) →
      (∀ m ds, S m → lookupDeps deps m = some ds → ∀ d ∈ ds, S d) →
      ∀ n ∈ compute_transitive_members roots deps, S n) := by
  refine ⟨mem_ctm_iff_reach roots deps, ?_, ?_, ?_⟩
  · intro n hn
    exact (mem_ctm_iff_reach roots deps n).mpr (Reach.root hn)
  · intro m hm ds hds d hd
    exact (mem_ctm_iff_reach roots deps d).mpr
      (Reach.step ((mem_ctm_iff_reach roots deps m).mp hm) hds hd)
  · intro S hroots hclosed n hn
    have hr := (mem_ctm_iff_reach roots deps n).mp hn
    induction hr with
    | root h => exact hroots _ h
    | step hm hd hn' ih =>
      exact hclosed _ _ (ih ((mem_ctm_iff_reach roots deps _).mpr hm)) hd _ hn'

/-- Witness for C1 at a concrete two-node graph with an edge `a → b`. -/
theorem C1_witness :
    "b" ∈ compute_transitive_members ["a"] [("a", ["b"])] :=
  ((C1_keep_set_is_reachability_closure ["a"] [("a", ["b"])]).1 "b").mpr
    (@Reach.step [("a", ["b"])] ["a"] "a" "b" ["b"]
      (Reach.root (by simp)) rfl (by simp))

/-- C9: the work-list loop of `compute_transitive_members` terminates for
every finite root set and dependency graph (cycles included): within
`ctmFuel` iterations the work list is empty, and every further iteration
leaves the state fixed. -/
theorem C9_worklist_terminates (roots : List String)
    (deps : List (String × List String)) :
    (ctmRun deps (ctmFuel roots deps) ([], roots)).2 = [] ∧
    ∀ k, ctmRun deps k (ctmRun deps (ctmFuel roots deps) ([], roots)) =
      ctmRun deps (ctmFuel roots deps) ([], roots) := by
  have hnil := ctm_stack_nil roots deps
  refine ⟨hnil, ?_⟩
  intro k
  rcases hF : ctmRun deps (ctmFuel roots deps) ([], roots) with ⟨keep, stack⟩
  have hstack : stack = [] := by rw [hF] at hnil; exact hnil
  subst hstack
  exact ctmRun_fix_of_nil deps k keep

lemma keepLockPkg_true_iff (all keep : List String) (p : LockPkg) :
    keepLockPkg all keep p = true ↔
      ∀ nm, p.name = some nm → nm ∉ all ∨ nm ∈ keep := by
  rcases hn : p.name with _ | nm
  · simp [keepLockPkg, hn]
  · simp only [keepLockPkg, hn, Bool.or_eq_true, decide_eq_true_eq]
    constructor
    · rintro h nm' he
      cases he
      exact h
    · intro h
      exact h nm rfl

lemma recipe_set_manifests_self (r : Recipe) (ms : List Manifest)
    (h : r.skeleton.manifests = ms) :
    ({ r with skeleton := { r.skeleton with manifests := ms } } : Recipe) = r := by
  cases r with
  | mk sk =>
    cases sk with
    | mk ms' lf =>
      simp only at h
      subst h
      rfl

lemma recipe_set_lock_self (r : Recipe) (lf : Option (Option LockDoc))
    (h : r.skeleton.lock_file = lf) :
    ({ r with skeleton := { r.skeleton with lock_file := lf } } : Recipe) = r := by
  cases r with
  | mk sk =>
    cases sk with
    | mk ms lf' =>
      simp only at h
      subst h
      rfl

lemma flm_lock_nopkg (r : Recipe) (all keep : List String) (doc : LockDoc)
    (hl : r.skeleton.lock_file = some (some doc)) (hp : doc.package = none) :
    filter_lockfile_members r all keep = Except.ok r := by
  unfold filter_lockfile_members
  rw [hl]
  dsimp only
  rw [hp]
  dsimp only
  rw [recipe_set_lock_self r (some (some doc)) hl]

lemma lookupDeps_cons (p : String × List String)
    (l : List (String × List String)) (n : String) :
    lookupDeps (p :: l) n = if p.1 = n then some p.2 else lookupDeps l n := by
  rcases p with ⟨a, b⟩
  by_cases h : a = n
  · subst h
    simp [lookupDeps, List.find?_cons_of_pos]
  · rw [lookupDeps, List.find?_cons_of_neg]
    · simp [lookupDeps, h]
    · simp [h]

lemma lookupDeps_nil (n : String) : lookupDeps [] n = none := rfl

lemma lookup_assocInsert (k : String) (v : List String)
    (l : List (String × List String)) (n : String) :
    lookupDeps (assocInsert k v l) n =
      if n = k then some v else lookupDeps l n := by
  induction l with
  | nil =>
    simp only [assocInsert, lookupDeps_cons, lookupDeps_nil]
    by_cases h : n = k
    · subst h; simp
    · simp [h, Ne.symm h]
  | cons p l ih =>
    obtain ⟨a, b⟩ := p
    by_cases hk : a = k
    · subst hk
      simp only [assocInsert, if_pos rfl]
      by_cases hn : n = a
      · subst hn; simp [lookupDeps_cons]
      · simp [lookupDeps_cons, hn, Ne.symm hn]
    · simp only [assocInsert, if_neg hk, lookupDeps_cons, ih]
      by_cases hn : n = k
      · subst hn
        have : a ≠ n := fun h => hk h
        simp [this]
      · simp [hn]

lemma bwdStep_scrub (all : List String) (acc : List (String × List String))
    (m : Manifest) :
    bwdStep all acc (scrubManifest m) = bwdStep all acc m := by
  rcases m with ⟨p, _ | doc⟩ <;> rfl

lemma foldl_bwd_scrub (all : List String) (ms : List Manifest)
    (acc : List (String × List String)) :
    (ms.map scrubManifest).foldl (bwdStep all) acc =
      ms.foldl (bwdStep all) acc := by
  induction ms generalizing acc with
  | nil => rfl
  | cons a l ih => simp [List.foldl_cons, bwdStep_scrub, ih]

lemma bwd_fold_origin (all : List String) (L : List Manifest) :
    ∀ (ms : List Manifest) (acc : List (String × List String)),
      (∀ m ∈ ms, m ∈ L) →
      (∀ name ds, lookupDeps acc name = some ds →
        ∀ d ∈ ds, ∃ m ∈ L, ∃ doc, m.contents = some doc ∧
          doc.packageName = some name ∧
          d ∈ doc.dependencies.getD [] ∧ d ∈ all) →
      ∀ name ds, lookupDeps (ms.foldl (bwdStep all) acc) name = some ds →
        ∀ d ∈ ds, ∃ m ∈ L, ∃ doc, m.contents = some doc ∧
          doc.packageName = some name ∧
          d ∈ doc.dependencies.getD [] ∧ d ∈ all := by
  intro ms
  induction ms with
  | nil => intro acc _ hacc; exact hacc
  | cons a ms ih =>
    intro acc hsub hacc
    simp only [List.foldl_cons]
    apply ih
    · intro m hm; exact hsub m (List.mem_cons_of_mem a hm)
    · intro name ds hds d hd
      rcases ha : a.contents with _ | doc
      · unfold bwdStep at hds
        rw [ha] at hds
        exact hacc name ds hds d hd
      · unfold bwdStep at hds
        rw [ha] at hds
        dsimp only at hds
        rcases hpn : doc.packageName with _ | nm
        · rw [hpn] at hds
          exact hacc name ds hds d hd
        · rw [hpn] at hds
          dsimp only at hds
          rw [lookup_assocInsert] at hds
          by_cases hnk : name = nm
          · subst hnk
            rw [if_pos rfl] at hds
            obtain rfl : (doc.dependencies.getD []).filter
                (fun d => decide (d ∈ all)) = ds := by
              simpa using hds
            have hdd := List.mem_filter.mp hd
            exact ⟨a, hsub a (List.mem_cons_self a ms), doc, ha, hpn,
              hdd.1, by simpa using hdd.2⟩
          · rw [if_neg hnk] at hds
            exact hacc name ds hds d hd

/-- C2: after reduction, the manifest sequence equals the input sequence
restricted (order preserved) to manifests whose crate name is absent or in
the keep set; consequently a workspace crate name is in the output manifest
set iff it is reachable by zero or more workspace-dependency edges from
some root. -/
theorem C2_manifest_filter_and_closure (r out : Recipe) (root : Manifest)
    (roots : List String)
    (h1 : get_root_manifest r = Except.ok root)
    (h2 : get_root_workspace_members root = Except.ok roots)
    (h : reduce_workspace_recipe r = Except.ok out) :
    out.skeleton.manifests = r.skeleton.manifests.filter
      (keepManifest (compute_transitive_members roots
        (build_workspace_deps r (get_all_workspace_members r)))) ∧
    ∀ c ∈ get_all_workspace_members r,
      ((∃ m ∈ out.skeleton.manifests, extract_crate_name m = some c) ↔
        Reach (build_workspace_deps r (get_all_workspace_members r))
          roots c) := by
  have hman := reduce_ok_manifests r out root roots h1 h2 h
  refine ⟨hman, ?_⟩
  intro c hc
  constructor
  · rintro ⟨m, hm, hname⟩
    rw [hman] at hm
    obtain ⟨hmr, hkeep⟩ := List.mem_filter.mp hm
    simp only [keepManifest, hname, decide_eq_true_eq] at hkeep
    exact (mem_ctm_iff_reach _ _ _).mp hkeep
  · intro hr
    have hckeep : c ∈ compute_transitive_members roots
        (build_workspace_deps r (get_all_workspace_members r)) :=
      (mem_ctm_iff_reach _ _ _).mpr hr
    obtain ⟨m, hmr, hname⟩ := (mem_all_iff r c).mp hc
    refine ⟨m, ?_, hname⟩
    rw [hman]
    exact List.mem_filter.mpr ⟨hmr, by simp [keepManifest, hname, hckeep]⟩

/-- Witness for C2 on the concrete workspace `root → a → b`. -/
theorem C2_witness :
    (∃ m ∈ wRecipe.skeleton.manifests, extract_crate_name m = some "b") ↔
      Reach (build_workspace_deps wRecipe (get_all_workspace_members wRecipe))
        ["a"] "b" :=
  (C2_manifest_filter_and_closure wRecipe wRecipe wRoot ["a"] rfl rfl rfl).2
    "b" (by decide)

/-- C3: a lock-file package entry is retained iff its name is absent or
non-string, or its name is not a workspace member (external dependencies
are kept, present in the output iff present in the input), or its name is
in the keep set. -/
theorem C3_lockfile_filter (r out : Recipe) (root : Manifest)
    (roots : List String) (doc : LockDoc) (pkgs : List LockPkg)
    (h1 : get_root_manifest r = Except.ok root)
    (h2 : get_root_workspace_members root = Except.ok roots)
    (hl : r.skeleton.lock_file = some (some doc))
    (hp : doc.package = some pkgs)
    (h : reduce_workspace_recipe r = Except.ok out) :
    ∃ pkgs' : List LockPkg,
      out.skeleton.lock_file = some (some ⟨some pkgs'⟩) ∧
      ∀ p : LockPkg, p ∈ pkgs' ↔ p ∈ pkgs ∧
        ∀ nm, p.name = some nm →
          nm ∉ get_all_workspace_members r ∨
          nm ∈ compute_transitive_members roots
            (build_workspace_deps r (get_all_workspace_members r)) := by
  rw [reduce_eq_pipeline r root roots h1 h2] at h
  have hl' : (filter_manifests r (compute_transitive_members roots
      (build_workspace_deps r (get_all_workspace_members r)))).skeleton.lock_file =
      some (some doc) := by
    rw [filter_manifests_lock]; exact hl
  rw [flm_lock_parsed _ _ _ doc pkgs hl' hp] at h
  simp only [Except.ok.injEq] at h
  refine ⟨pkgs.filter (keepLockPkg (get_all_workspace_members r)
    (compute_transitive_members roots
      (build_workspace_deps r (get_all_workspace_members r)))), ?_, ?_⟩
  · rw [← h]
  · intro p
    rw [List.mem_filter, keepLockPkg_true_iff]

/-- Witness for C3 on the concrete workspace with a parsed lock file. -/
theorem C3_witness :
    ∃ pkgs' : List LockPkg,
      wLockRecipe.skeleton.lock_file = some (some ⟨some pkgs'⟩) ∧
      ∀ p : LockPkg, p ∈ pkgs' ↔ p ∈ wPkgs ∧
        ∀ nm, p.name = some nm →
          nm ∉ get_all_workspace_members wLockRecipe ∨
          nm ∈ compute_transitive_members ["a"]
            (build_workspace_deps wLockRecipe
              (get_all_workspace_members wLockRecipe)) :=
  C3_lockfile_filter wLockRecipe wLockRecipe wRoot ["a"] ⟨some wPkgs⟩ wPkgs
    rfl rfl rfl rfl rfl

/-- C4 counterexample: on a recipe whose root `Cargo.toml` declares a
package name (`rootpkg`) that is not reachable from the listed member `a`,
the reduction succeeds but drops the root manifest, so the claim as stated
(root manifest retained regardless of the keep set) is false. -/
theorem C4_counterexample :
    reduce_workspace_recipe c4Recipe = Except.ok ⟨⟨[c4A], none⟩⟩ ∧
    c4Root.relative_path = "Cargo.toml" ∧
    c4Root ∈ c4Recipe.skeleton.manifests ∧
    c4Root ∉ (⟨⟨[c4A], none⟩⟩ : Recipe).skeleton.manifests ∧
    c4A.relative_path ≠ "Cargo.toml" := by
  refine ⟨rfl, rfl, ?_, ?_, ?_⟩ <;> decide

/-- C4 (amended): whenever the reduction succeeds, a manifest of the input
whose relative path is `Cargo.toml` and whose crate name is not extractable
(the virtual root) is present in the output, regardless of the keep set. -/
theorem C4_virtual_root_retained (r out : Recipe) (m : Manifest)
    (hm : m ∈ r.skeleton.manifests)
    (hpath : m.relative_path = "Cargo.toml")
    (hvirt : extract_crate_name m = none)
    (h : reduce_workspace_recipe r = Except.ok out) :
    m ∈ out.skeleton.manifests := by
  obtain ⟨root, roots, h1, h2, hflm⟩ := reduce_ok_destruct r out h
  have hman := reduce_ok_manifests r out root roots h1 h2 h
  rw [hman]
  exact List.mem_filter.mpr ⟨hm, by simp [keepManifest, hvirt]⟩

/-- Witness for C4's amended statement: the virtual root of the concrete
workspace is retained. -/
theorem C4_witness : wRoot ∈ wRecipe.skeleton.manifests :=
  C4_virtual_root_retained wRecipe wRecipe wRoot (by decide) rfl rfl rfl

/-- C5: if every workspace member name is transitively reachable from the
root set, then a successful reduction returns a recipe equal to the input
recipe (same manifest sequence and same lock-file entries). -/
theorem C5_identity_under_full_reachability (r out : Recipe)
    (root : Manifest) (roots : List String)
    (h1 : get_root_manifest r = Except.ok root)
    (h2 : get_root_workspace_members root = Except.ok roots)
    (hreach : ∀ c ∈ get_all_workspace_members r,
      Reach (build_workspace_deps r (get_all_workspace_members r)) roots c)
    (h : reduce_workspace_recipe r = Except.ok out) :
    out = r := by
  have hsub : ∀ c ∈ get_all_workspace_members r,
      c ∈ compute_transitive_members roots
        (build_workspace_deps r (get_all_workspace_members r)) :=
    fun c hc => (mem_ctm_iff_reach _ _ _).mpr (hreach c hc)
  have hfil : r.skeleton.manifests.filter
      (keepManifest (compute_transitive_members roots
        (build_workspace_deps r (get_all_workspace_members r)))) =
      r.skeleton.manifests := by
    apply List.filter_eq_self.mpr
    intro m hm
    rcases hx : extract_crate_name m with _ | c
    · simp [keepManifest, hx]
    · have hc : c ∈ get_all_workspace_members r :=
        (mem_all_iff r c).mpr ⟨m, hm, hx⟩
      simp [keepManifest, hx, hsub c hc]
  have hfm : filter_manifests r (compute_transitive_members roots
      (build_workspace_deps r (get_all_workspace_members r))) = r := by
    unfold filter_manifests
    rw [hfil]
  rw [reduce_eq_pipeline r root roots h1 h2, hfm] at h
  rcases hl : r.skeleton.lock_file with _ | lf
  · rw [flm_lock_none r _ _ hl] at h
    simp only [Except.ok.injEq] at h
    exact h.symm
  · rcases lf with _ | doc
    · exact absurd h (flm_lock_bad r _ _ hl
        out)
    · rcases hpk : doc.package with _ | pkgs
      · rw [flm_lock_nopkg r _ _ doc hl hpk] at h
        simp only [Except.ok.injEq] at h
        exact h.symm
      · rw [flm_lock_parsed r _ _ doc pkgs hl hpk] at h
        have hfilp : pkgs.filter (keepLockPkg (get_all_workspace_members r)
            (compute_transitive_members roots
              (build_workspace_deps r (get_all_workspace_members r)))) =
            pkgs := by
          apply List.filter_eq_self.mpr
          intro p hp
          apply (keepLockPkg_true_iff _ _ p).mpr
          intro nm _
          by_cases hin : nm ∈ get_all_workspace_members r
          · exact Or.inr (hsub nm hin)
          · exact Or.inl hin
        rw [hfilp] at h
        have hdoc : (⟨some pkgs⟩ : LockDoc) = doc := by
          rw [← hpk]
        rw [hdoc, recipe_set_lock_self r (some (some doc)) hl] at h
        simp only [Except.ok.injEq] at h
        exact h.symm

/-- Witness for C5 on the concrete workspace `root → a → b`, where both
members are reachable from the root set. -/
theorem C5_witness : wRecipe = wRecipe :=
  C5_identity_under_full_reachability wRecipe wRecipe wRoot ["a"] rfl rfl
    (by
      intro c hc
      have hc' : c = "a" ∨ c = "b" := by
        simpa [get_all_workspace_members, wRecipe, wRoot, wA, wB,
          extract_crate_name] using hc
      rcases hc' with h | h
      · subst h
        exact Reach.root (by simp)
      · subst h
        exact @Reach.step
          (build_workspace_deps wRecipe (get_all_workspace_members wRecipe))
          ["a"] "a" "b" ["b"] (Reach.root (by simp)) rfl (by simp))
    rfl

/-- C6 counterexample: the root manifest `c6Root` has a `workspace.members`
array containing a non-string item, which is not "an array of strings",
yet `get_root_workspace_members` succeeds (returning the empty member set)
instead of returning an error. -/
theorem C6_counterexample :
    c6Root.contents = some ⟨none, none, [], some [(none : Option String)]⟩ ∧
    get_root_workspace_members c6Root = Except.ok [] :=
  ⟨rfl, rfl⟩

/-- C6 (amended): `get_root_workspace_members` succeeds iff the root
manifest's contents parse and the workspace member-list field is an array;
on success it returns the string-valued items of that array (non-string
items are silently ignored, not an error). -/
theorem C6_root_members_success_iff (root : Manifest) :
    ((∃ ms, get_root_workspace_members root = Except.ok ms) ↔
      ∃ doc items, root.contents = some doc ∧
        doc.workspaceMembers = some items) ∧
    (∀ doc items, root.contents = some doc →
      doc.workspaceMembers = some items →
      get_root_workspace_members root = Except.ok (items.filterMap id)) := by
  have hok : ∀ doc items, root.contents = some doc →
      doc.workspaceMembers = some items →
      get_root_workspace_members root = Except.ok (items.filterMap id) := by
    intro doc items hc hw
    unfold get_root_workspace_members
    rw [hc]
    dsimp only
    rw [hw]
  refine ⟨⟨?_, ?_⟩, hok⟩
  · rintro ⟨ms, hms⟩
    unfold get_root_workspace_members at hms
    rcases hc : root.contents with _ | doc
    · rw [hc] at hms; simp at hms
    · rw [hc] at hms
      dsimp only at hms
      rcases hw : doc.workspaceMembers with _ | items
      · rw [hw] at hms; simp at hms
      · exact ⟨doc, items, rfl, hw⟩
  · rintro ⟨doc, items, hc, hw⟩
    exact ⟨items.filterMap id, hok doc items hc hw⟩

/-- Witness for C6's amended statement on the concrete virtual root. -/
theorem C6_witness : ∃ ms, get_root_workspace_members wRoot = Except.ok ms :=
  (C6_root_members_success_iff wRoot).1.mpr
    ⟨⟨none, none, [], some [some "a"]⟩, [some "a"], rfl, rfl⟩

/-- C7: a manifest whose contents fail to parse contributes no node and no
edges to the dependency graph, and the graph (and member list) for the
remaining manifests is still built — graph construction never errors (its
type is total). -/
theorem C7_unparseable_manifest_is_skipped (pre post : List Manifest)
    (lf lf' : Option (Option LockDoc)) (m : Manifest) (all : List String)
    (h : m.contents = none) :
    build_workspace_deps ⟨⟨pre ++ m :: post, lf⟩⟩ all =
      build_workspace_deps ⟨⟨pre ++ post, lf'⟩⟩ all ∧
    get_all_workspace_members ⟨⟨pre ++ m :: post, lf⟩⟩ =
      get_all_workspace_members ⟨⟨pre ++ post, lf'⟩⟩ := by
  have hx : extract_crate_name m = none := by
    unfold extract_crate_name
    rw [h]
    rfl
  constructor
  · unfold build_workspace_deps
    dsimp only
    rw [List.foldl_append, List.foldl_append, List.foldl_cons]
    have hstep : bwdStep all (pre.foldl (bwdStep all) []) m =
        pre.foldl (bwdStep all) [] := by
      unfold bwdStep
      rw [h]
    rw [hstep]
  · unfold get_all_workspace_members
    dsimp only
    rw [List.filterMap_append, List.filterMap_append,
      List.filterMap_cons_none hx]

/-- Witness for C7: dropping a concrete unparseable manifest changes
neither the graph nor the member list. -/
theorem C7_witness :
    build_workspace_deps ⟨⟨[wRoot] ++ wBad :: [wA], none⟩⟩ ["a"] =
      build_workspace_deps ⟨⟨[wRoot] ++ [wA], none⟩⟩ ["a"] ∧
    get_all_workspace_members ⟨⟨[wRoot] ++ wBad :: [wA], none⟩⟩ =
      get_all_workspace_members ⟨⟨[wRoot] ++ [wA], none⟩⟩ :=
  C7_unparseable_manifest_is_skipped [wRoot] [wA] none none wBad ["a"] rfl

/-- C8: a lock-file text that is present but does not parse makes the whole
reduction return an error; an absent lock file makes lock-file pruning a
successful no-op that leaves the field absent. -/
theorem C8_lockfile_error_handling :
    (∀ r : Recipe, r.skeleton.lock_file = some none →
      ∀ out, reduce_workspace_recipe r ≠ Except.ok out) ∧
    (∀ (r : Recipe) (all keep : List String),
      r.skeleton.lock_file = none →
      filter_lockfile_members r all keep = Except.ok r) := by
  constructor
  · intro r hl out h
    obtain ⟨root, roots, h1, h2, hflm⟩ := reduce_ok_destruct r out h
    have hl' : (filter_manifests r (compute_transitive_members roots
        (build_workspace_deps r
          (get_all_workspace_members r)))).skeleton.lock_file =
        some none := by
      rw [filter_manifests_lock]
      exact hl
    exact flm_lock_bad _ _ _ hl' out hflm
  · intro r all keep hl
    exact flm_lock_none r all keep hl

/-- Witness for C8 on the concrete recipes with an unparseable and with an
absent lock file. -/
theorem C8_witness :
    reduce_workspace_recipe wBadLockRecipe ≠ Except.ok wBadLockRecipe ∧
    filter_lockfile_members wRecipe [] [] = Except.ok wRecipe :=
  ⟨C8_lockfile_error_handling.1 wBadLockRecipe rfl wBadLockRecipe,
    C8_lockfile_error_handling.2 wRecipe [] [] rfl⟩

/-- C10: the dependency graph reads only the keys of each manifest's
top-level `[dependencies]` table: erasing every other dependency-like table
changes neither the graph nor any keep set, and every recorded edge target
is a key of the source manifest's `[dependencies]` table that is a
workspace member. -/
theorem C10_edges_only_from_dependencies_table (r : Recipe)
    (all : List String) :
    build_workspace_deps (scrubRecipe r) all = build_workspace_deps r all ∧
    (∀ roots, compute_transitive_members roots
        (build_workspace_deps (scrubRecipe r) all) =
      compute_transitive_members roots (build_workspace_deps r all)) ∧
    (∀ name ds, lookupDeps (build_workspace_deps r all) name = some ds →
      ∀ d ∈ ds, ∃ m ∈ r.skeleton.manifests, ∃ doc, m.contents = some doc ∧
        doc.packageName = some name ∧
        d ∈ doc.dependencies.getD [] ∧ d ∈ all) := by
  have hb : build_workspace_deps (scrubRecipe r) all =
      build_workspace_deps r all := by
    unfold build_workspace_deps scrubRecipe
    dsimp only
    exact foldl_bwd_scrub all r.skeleton.manifests []
  refine ⟨hb, fun roots => by rw [hb], ?_⟩
  exact bwd_fold_origin all r.skeleton.manifests r.skeleton.manifests []
    (fun m hm => hm)
    (by intro name ds hds; rw [lookupDeps_nil] at hds; cases hds)

/-- Witness for C10: the sole edge of the concrete workspace `x → y` comes
from `x`'s `[dependencies]` table, even though `x` also references `z`
from another dependency-like table. -/
theorem C10_witness :
    ∃ m ∈ wC10Recipe.skeleton.manifests, ∃ doc, m.contents = some doc ∧
      doc.packageName = some "x" ∧ "y" ∈ doc.dependencies.getD [] ∧
      "y" ∈ ["x", "y", "z"] :=
  (C10_edges_only_from_dependencies_table wC10Recipe ["x", "y", "z"]).2.2
    "x" ["y"] rfl "y" (by simp)
